import Mathlib

/-!
Shallow embedding of `check_project.py`, a single-file linting script.

The script enumerates header files matching `src/**/*.h`, and
* pass 1: for each header, derives a companion path via the Python call
  `header.replace(".h", ".cpp")` and reports a "Missing implementation"
  issue when that path does not exist;
* pass 2: for each header, reads its content and reports a
  "Missing JuceHeader.h" issue when the literal substring
  `#include <JuceHeader.h>` does not occur in it.

The filesystem is modelled as an explicit state `FS`: the ordered list of
headers the glob yields, an existence predicate, and a fallible reader
(Python propagates any read exception, which we model with `Except`).
-/

namespace CheckProject

/-- The Python method `str.replace` with arguments `".h"` and `".cpp"`,
specialized to the needle `".h"`:
it rewrites every non-overlapping occurrence of the two characters dot-h,
scanning left
to right, into `".cpp"`.  This embeds the expression
`header.replace(".h", ".cpp")` at line 10 of `check_project.py`. -/
def replaceDotH : List Char → List Char
  | '.' :: 'h' :: s => '.' :: 'c' :: 'p' :: 'p' :: replaceDotH s
  | c :: s => c :: replaceDotH s
  | [] => []

/-- The derived companion path for a header, `header.replace(".h", ".cpp")`. -/
def implPath (header : String) : String := ⟨replaceDotH header.data⟩

/-- A variant that follows the words of the SPEC for the transform, not the
code:
replace only the FIRST occurrence of `".h"` and leave the rest of the string
unchanged.  Used to compare the description in the spec with the code. -/
def replaceFirstDotH : List Char → List Char
  | '.' :: 'h' :: s => '.' :: 'c' :: 'p' :: 'p' :: s
  | c :: s => c :: replaceFirstDotH s
  | [] => []

/-- The companion path as the spec describes it (first occurrence only). -/
def implPathFirstOnly (header : String) : String := ⟨replaceFirstDotH header.data⟩

/-- The Python substring test `needle in hay`: `needle` occurs contiguously
in `hay`.  Embeds the test `content` contains `#include <JuceHeader.h>` at
line 18. -/
def containsSub (needle : List Char) : List Char → Bool
  | [] => needle.isEmpty
  | c :: s => needle.isPrefixOf (c :: s) || containsSub needle s

/-- The literal include line the script looks for. -/
def juceNeedle : String := "#include <JuceHeader.h>"

/-- The filesystem state the script observes: the headers the glob
`src/**/*.h` enumerates (in traversal order), the `os.path.exists`
predicate, and the (fallible) file reader `open(...).read()`. -/
structure FS where
  headers : List String
  pathExists : String → Bool
  readFile : String → Except String String

/-- Pass 1 of `check_project` (lines 8-12): for each header, if the derived
companion path does not exist, emit a "Missing implementation" issue. -/
def missingImplIssues (fs : FS) : List String :=
  fs.headers.filterMap fun header =>
    if fs.pathExists (implPath header) then none
    else some ("Missing implementation: " ++ header)

/-- Pass 2 of `check_project` (lines 15-19): for each header in order, read
its content (an exception aborts the whole run) and emit a
"Missing JuceHeader.h" issue when the include line is absent. -/
def checkIncludes (fs : FS) : List String → Except String (List String)
  | [] => .ok []
  | header :: rest =>
    match fs.readFile header with
    | .error e => .error e
    | .ok content =>
      match checkIncludes fs rest with
      | .error e => .error e
      | .ok tail =>
        .ok (if containsSub juceNeedle.data content.data then tail
             else ("Missing JuceHeader.h in: " ++ header) :: tail)

/-- `check_project()` (lines 4-21): pass 1 then pass 2, all issues in
discovery order; any read exception aborts, losing the pass-1 issues too. -/
def check_project (fs : FS) : Except String (List String) :=
  match checkIncludes fs fs.headers with
  | .error e => .error e
  | .ok incIssues => .ok (missingImplIssues fs ++ incIssues)

/-- The line printed for one issue by the `__main__` block (line 26). -/
def warnLine (p : String) : String := "⚠️  " ++ p

/-- The standard-output lines of the script when run as an entry point
(lines 23-26): one line per issue, in order, each prefixed `"⚠️  "`. -/
def mainOutput (fs : FS) : Except String (List String) :=
  match check_project fs with
  | .error e => .error e
  | .ok problems => .ok (problems.map warnLine)

/-- Recognizes pass-1 issues by their fixed prefix. -/
def isMissingImplIssue (s : String) : Bool :=
  "Missing implementation: ".data.isPrefixOf s.data

/-- Recognizes pass-2 issues by their fixed prefix. -/
def isMissingIncludeIssue (s : String) : Bool :=
  "Missing JuceHeader.h in: ".data.isPrefixOf s.data

/-- A sample filesystem: one header, no companion file on disk, content
without the include line. -/
def fsSample : FS :=
  ⟨["src/A.h"], fun _ => false, fun _ => .ok "class A;\n"⟩

/-- The issues `check_project` reports on `fsSample`. -/
def issuesSample : List String :=
  ["Missing implementation: src/A.h", "Missing JuceHeader.h in: src/A.h"]

/-- Like `fsSample` but every path exists on disk; same headers, same
contents.  Used to vary only the presence of `.cpp` files. -/
def fsSampleExists : FS :=
  ⟨["src/A.h"], fun _ => true, fun _ => .ok "class A;\n"⟩

/-- A filesystem whose reads all fail (e.g. permission denial). -/
def fsErr : FS :=
  ⟨["src/A.h"], fun _ => false, fun _ => .error "PermissionError"⟩

/-- A filesystem where the glob enumerates no headers. -/
def fsEmpty : FS :=
  ⟨[], fun _ => false, fun _ => .ok ""⟩

/-! ### Helper lemmas -/

theorem mem_missingImplIssues {fs : FS} {x : String} :
    x ∈ missingImplIssues fs ↔
      ∃ h ∈ fs.headers, fs.pathExists (implPath h) = false ∧
        x = "Missing implementation: " ++ h := by
  simp only [missingImplIssues, List.mem_filterMap]
  constructor
  · rintro ⟨h, hm, hx⟩
    by_cases hb : fs.pathExists (implPath h) = true
    · rw [if_pos hb] at hx; exact absurd hx (by simp)
    · rw [if_neg hb] at hx
      exact ⟨h, hm, by simpa using hb, (Option.some_inj.mp hx).symm⟩
  · rintro ⟨h, hm, hb, rfl⟩
    exact ⟨h, hm, by rw [if_neg (by simp [hb])]⟩

theorem checkIncludes_ok_mem {fs : FS} {l out : List String}
    (hok : checkIncludes fs l = .ok out) {x : String} :
    x ∈ out ↔ ∃ h ∈ l, ∃ c, fs.readFile h = .ok c ∧
      containsSub juceNeedle.data c.data = false ∧
      x = "Missing JuceHeader.h in: " ++ h := by
  induction l generalizing out with
  | nil =>
    simp only [checkIncludes, Except.ok.injEq] at hok
    subst hok; simp
  | cons h rest ih =>
    simp only [checkIncludes] at hok
    cases hr : fs.readFile h with
    | error e => rw [hr] at hok; exact absurd hok (by simp)
    | ok c =>
      rw [hr] at hok
      cases ht : checkIncludes fs rest with
      | error e => rw [ht] at hok; exact absurd hok (by simp)
      | ok tail =>
        rw [ht] at hok
        simp only [Except.ok.injEq] at hok
        by_cases hc : containsSub juceNeedle.data c.data = true
        · rw [if_pos hc] at hok; subst hok
          rw [ih ht]
          constructor
          · rintro ⟨h', hm', rest'⟩
            exact ⟨h', List.mem_cons_of_mem _ hm', rest'⟩
          · rintro ⟨h', hm', c', hr', hc', rfl⟩
            rcases List.mem_cons.mp hm' with rfl | hm'
            · rw [hr] at hr'
              cases Except.ok.inj hr'
              rw [hc'] at hc; exact absurd hc (by simp)
            · exact ⟨h', hm', c', hr', hc', rfl⟩
        · rw [if_neg hc] at hok; subst hok
          constructor
          · intro hmem
            rcases List.mem_cons.mp hmem with rfl | hmem
            · exact ⟨h, List.mem_cons_self _ _, c, hr, by simpa using hc, rfl⟩
            · obtain ⟨h', hm', w⟩ := (ih ht).mp hmem
              exact ⟨h', List.mem_cons_of_mem _ hm', w⟩
          · rintro ⟨h', hm', c', hr', hc', rfl⟩
            rcases List.mem_cons.mp hm' with rfl | hm'
            · exact List.mem_cons_self _ _
            · exact List.mem_cons_of_mem _ ((ih ht).mpr ⟨h', hm', c', hr', hc', rfl⟩)

theorem checkIncludes_isOk {fs : FS} {l : List String}
    (hr : ∀ h ∈ l, ∃ c, fs.readFile h = .ok c) :
    ∃ out, checkIncludes fs l = .ok out := by
  induction l with
  | nil => exact ⟨[], rfl⟩
  | cons h rest ih =>
    obtain ⟨c, hc⟩ := hr h (List.mem_cons_self _ _)
    obtain ⟨tail, htail⟩ := ih fun h' hm' => hr h' (List.mem_cons_of_mem _ hm')
    by_cases hcc : containsSub juceNeedle.data c.data = true
    · exact ⟨tail, by simp only [checkIncludes]; rw [hc, htail]; simp [hcc]⟩
    · exact ⟨("Missing JuceHeader.h in: " ++ h) :: tail,
        by simp only [checkIncludes]; rw [hc, htail]; simp [hcc]⟩

theorem checkIncludes_error {fs : FS} {l : List String} {h : String}
    (hmem : h ∈ l) {e : String} (he : fs.readFile h = .error e) :
    ∃ e', checkIncludes fs l = .error e' := by
  induction l with
  | nil => cases hmem
  | cons h' rest ih =>
    simp only [checkIncludes]
    cases hr : fs.readFile h' with
    | error e' => exact ⟨e', rfl⟩
    | ok c =>
      rcases List.mem_cons.mp hmem with rfl | hmem'
      · rw [hr] at he; cases he
      · obtain ⟨e', he'⟩ := ih hmem'
        rw [he']
        exact ⟨e', rfl⟩

theorem checkIncludes_length {fs : FS} {l out : List String}
    (hok : checkIncludes fs l = .ok out) : out.length ≤ l.length := by
  induction l generalizing out with
  | nil =>
    simp only [checkIncludes, Except.ok.injEq] at hok
    subst hok; simp
  | cons h rest ih =>
    simp only [checkIncludes] at hok
    cases hr : fs.readFile h with
    | error e => rw [hr] at hok; exact absurd hok (by simp)
    | ok c =>
      rw [hr] at hok
      cases ht : checkIncludes fs rest with
      | error e => rw [ht] at hok; exact absurd hok (by simp)
      | ok tail =>
        rw [ht] at hok
        simp only [Except.ok.injEq] at hok
        have htl := ih ht
        by_cases hc : containsSub juceNeedle.data c.data = true
        · rw [if_pos hc] at hok; subst hok
          simp only [List.length_cons]; omega
        · rw [if_neg hc] at hok; subst hok
          simp only [List.length_cons]; omega

theorem checkIncludes_congr {fs₁ fs₂ : FS} (hrf : fs₁.readFile = fs₂.readFile)
    (l : List String) : checkIncludes fs₁ l = checkIncludes fs₂ l := by
  induction l with
  | nil => rfl
  | cons h rest ih =>
    simp only [checkIncludes, hrf, ih]

theorem string_append_cancel {p a b : String}
    (h : p ++ a = p ++ b) : a = b := by
  apply String.ext
  have : p.data ++ a.data = p.data ++ b.data := by
    rw [← String.data_append, ← String.data_append, h]
  exact List.append_cancel_left this

theorem isMissingImplIssue_of_issue (h : String) :
    isMissingImplIssue ("Missing implementation: " ++ h) = true := by
  simp [isMissingImplIssue]

theorem isMissingIncludeIssue_of_issue (h : String) :
    isMissingIncludeIssue ("Missing JuceHeader.h in: " ++ h) = true := by
  simp [isMissingIncludeIssue]

theorem not_include_of_impl {s : String}
    (h1 : isMissingImplIssue s = true) : isMissingIncludeIssue s = false := by
  simp only [isMissingImplIssue, List.isPrefixOf_iff_prefix] at h1
  by_contra hc
  simp only [isMissingIncludeIssue, Bool.not_eq_false,
    List.isPrefixOf_iff_prefix] at hc
  rcases List.prefix_or_prefix_of_prefix h1 hc with hp | hp
  · exact absurd hp (by decide)
  · exact absurd hp (by decide)

theorem not_impl_of_include {s : String}
    (h1 : isMissingIncludeIssue s = true) : isMissingImplIssue s = false := by
  by_contra hc
  simp only [Bool.not_eq_false] at hc
  rw [not_include_of_impl hc] at h1
  cases h1

theorem mem_missingImplIssues_isImpl {fs : FS} {x : String}
    (hx : x ∈ missingImplIssues fs) : isMissingImplIssue x = true := by
  obtain ⟨h, _, _, rfl⟩ := mem_missingImplIssues.mp hx
  exact isMissingImplIssue_of_issue h

theorem mem_checkIncludes_isInclude {fs : FS} {l out : List String}
    (hok : checkIncludes fs l = .ok out) {x : String} (hx : x ∈ out) :
    isMissingIncludeIssue x = true := by
  obtain ⟨h, _, c, _, _, rfl⟩ := (checkIncludes_ok_mem hok).mp hx
  exact isMissingIncludeIssue_of_issue h

theorem check_project_ok_iff {fs : FS} {issues : List String} :
    check_project fs = .ok issues ↔
      ∃ incIssues, checkIncludes fs fs.headers = .ok incIssues ∧
        issues = missingImplIssues fs ++ incIssues := by
  unfold check_project
  cases ht : checkIncludes fs fs.headers with
  | error e => simp
  | ok incIssues =>
    simp only [Except.ok.injEq]
    constructor
    · rintro rfl; exact ⟨incIssues, rfl, rfl⟩
    · rintro ⟨inc', rfl, rfl⟩; rfl

/-! ### Lemmas about the `.h` to `.cpp` substitution -/

theorem replaceDotH_head (d : Char) (s : List Char) :
    ∃ r, replaceDotH (d :: s) = d :: r := by
  by_cases hc : d = '.'
  · rcases s with _ | ⟨e, t⟩
    · exact ⟨_, replaceDotH.eq_2 d [] (fun s1 _ h2 => by cases h2)⟩
    · by_cases he : e = 'h'
      · subst hc he; exact ⟨_, replaceDotH.eq_1 t⟩
      · exact ⟨_, replaceDotH.eq_2 d (e :: t)
          (fun s1 _ h2 => absurd h2 (by simp [he]))⟩
  · exact ⟨_, replaceDotH.eq_2 d s (fun s1 h1 _ => hc h1)⟩

theorem replaceDotH_no_dotH (s : List Char) :
    containsSub ['.', 'h'] (replaceDotH s) = false := by
  induction s using replaceDotH.induct with
  | case1 s ih =>
    rw [replaceDotH.eq_1]
    simp [containsSub, List.isPrefixOf, ih]
  | case2 c s hne ih =>
    rw [replaceDotH.eq_2 c s hne]
    simp only [containsSub]
    rw [ih, Bool.or_false]
    by_cases hc : c = '.'
    · subst hc
      rcases s with _ | ⟨e, t⟩
      · simp [replaceDotH, List.isPrefixOf]
      · obtain ⟨r, hr⟩ := replaceDotH_head e t
        rw [hr]
        have he : e ≠ 'h' := fun h => hne t rfl (by rw [h])
        simp [List.isPrefixOf, Ne.symm he]
    · simp [List.isPrefixOf, Ne.symm hc]
  | case3 => rfl

theorem replaceDotH_of_no_dotH (s : List Char)
    (h : containsSub ['.', 'h'] s = false) : replaceDotH s = s := by
  induction s using replaceDotH.induct with
  | case1 s ih =>
    exfalso
    simp [containsSub, List.isPrefixOf] at h
  | case2 c s hne ih =>
    rw [replaceDotH.eq_2 c s hne]
    simp only [containsSub, Bool.or_eq_false_iff] at h
    rw [ih h.2]
  | case3 => rfl

theorem suffix_cons_of {l₁ l₂ : List Char} (a : Char) (h : l₁ <:+ l₂) :
    l₁ <:+ a :: l₂ := by
  obtain ⟨t, rfl⟩ := h
  exact ⟨a :: t, rfl⟩

theorem replaceDotH_suffix (s : List Char) (h : ['.', 'h'] <:+ s) :
    ['.', 'c', 'p', 'p'] <:+ replaceDotH s := by
  induction s using replaceDotH.induct with
  | case1 s ih =>
    rw [replaceDotH.eq_1]
    rcases List.suffix_cons_iff.mp h with heq | h2
    · injection heq with _ h2
      injection h2 with _ h3
      subst h3
      exact List.suffix_rfl
    · rcases List.suffix_cons_iff.mp h2 with heq | h3
      · injection heq with hbad
        exact absurd hbad (by decide)
      · exact suffix_cons_of _ (suffix_cons_of _ (suffix_cons_of _
          (suffix_cons_of _ (ih h3))))
  | case2 c s hne ih =>
    rw [replaceDotH.eq_2 c s hne]
    rcases List.suffix_cons_iff.mp h with heq | h2
    · injection heq with h1 h2
      exact (hne [] h1.symm h2.symm).elim
    · exact suffix_cons_of _ (ih h2)
  | case3 => simp at h

theorem getLast_of_suffix_dotH {l : List Char} (h : ['.', 'h'] <:+ l) :
    l.getLast? = some 'h' := by
  obtain ⟨t, rfl⟩ := h
  simp

theorem getLast_of_suffix_cpp {l : List Char} (h : ['.', 'c', 'p', 'p'] <:+ l) :
    l.getLast? = some 'p' := by
  obtain ⟨t, rfl⟩ := h
  simp

/-! ### Claim theorems -/

/-- Claim C1, counterexample: the claim says the expected implementation
path replaces only the FIRST occurrence of `".h"`, leaving later occurrences
unchanged.  Python's `str.replace` replaces every occurrence: for the header
`"src/ui.h/Main.h"` the code derives `"src/ui.cpp/Main.cpp"`, while the
first-occurrence-only transform would give `"src/ui.cpp/Main.h"`. -/
theorem c1_first_only_counterexample :
    implPath "src/ui.h/Main.h" = "src/ui.cpp/Main.cpp" ∧
    implPathFirstOnly "src/ui.h/Main.h" = "src/ui.cpp/Main.h" ∧
    implPath "src/ui.h/Main.h" ≠ implPathFirstOnly "src/ui.h/Main.h" :=
  ⟨by decide, by decide, by decide⟩

/-- Claim C1 (amended): the expected implementation path is the header path
with EVERY non-overlapping occurrence of `".h"` (scanned left to right)
replaced by `".cpp"`: no occurrence of `".h"` remains in the derived path,
and a header path containing no occurrence of `".h"` is left unchanged. -/
theorem c1_replaces_every_occurrence :
    (∀ header : String, containsSub ".h".data (implPath header).data = false) ∧
    (∀ header : String, containsSub ".h".data header.data = false →
      implPath header = header) := by
  constructor
  · intro header
    exact replaceDotH_no_dotH header.data
  · intro header h
    exact String.ext (replaceDotH_of_no_dotH header.data h)

/-- Witness for the amended claim C1 at the concrete input `"src/util.c"`. -/
theorem c1_replaces_every_occurrence_witness :
    containsSub ".h".data ("src/util.c" : String).data = false ∧
    implPath "src/util.c" = "src/util.c" :=
  ⟨by decide, c1_replaces_every_occurrence.2 "src/util.c" (by decide)⟩

/-- Claim C2: in every successful result of `check_project`, every
missing-implementation issue precedes every missing-include issue, for any
filesystem state and any header enumeration order. -/
theorem c2_impl_issues_precede_include_issues {fs : FS} {issues : List String}
    (hok : check_project fs = .ok issues) (i j : Nat)
    (hi : i < issues.length) (hj : j < issues.length)
    (himpl : isMissingImplIssue (issues.get ⟨i, hi⟩) = true)
    (hinc : isMissingIncludeIssue (issues.get ⟨j, hj⟩) = true) : i < j := by
  obtain ⟨inc, hincOk, rfl⟩ := check_project_ok_iff.mp hok
  simp only [List.get_eq_getElem] at himpl hinc
  have hiA : i < (missingImplIssues fs).length := by
    by_contra hge
    push_neg at hge
    have hmem : (missingImplIssues fs ++ inc)[i] ∈ inc := by
      rw [List.getElem_append_right hge]
      exact List.getElem_mem _
    have hisInc := mem_checkIncludes_isInclude hincOk hmem
    rw [not_impl_of_include hisInc] at himpl
    cases himpl
  have hjA : (missingImplIssues fs).length ≤ j := by
    by_contra hlt
    push_neg at hlt
    have hmem : (missingImplIssues fs ++ inc)[j] ∈ missingImplIssues fs := by
      rw [List.getElem_append_left hlt]
      exact List.getElem_mem _
    have hisImpl := mem_missingImplIssues_isImpl hmem
    rw [not_include_of_impl hisImpl] at hinc
    cases hinc
  omega

/-- Witness for claim C2 on the sample filesystem, at positions 0 and 1. -/
theorem c2_witness : (0 : Nat) < 1 :=
  @c2_impl_issues_precede_include_issues fsSample issuesSample
    rfl 0 1 (by decide) (by decide) (by decide) (by decide)

/-- Claim C3: for every enumerated header, the result contains
`"Missing implementation: <header>"` if and only if the derived
implementation path does not exist on disk. -/
theorem c3_missing_impl_iff {fs : FS} {issues : List String}
    (hok : check_project fs = .ok issues) {header : String}
    (hmem : header ∈ fs.headers) :
    ("Missing implementation: " ++ header) ∈ issues ↔
      fs.pathExists (implPath header) = false := by
  obtain ⟨inc, hincOk, rfl⟩ := check_project_ok_iff.mp hok
  constructor
  · intro hin
    rcases List.mem_append.mp hin with hA | hB
    · obtain ⟨h', _, hb, heq⟩ := mem_missingImplIssues.mp hA
      rw [string_append_cancel heq]
      exact hb
    · have hisInc := mem_checkIncludes_isInclude hincOk hB
      have hisImpl := isMissingImplIssue_of_issue header
      rw [not_include_of_impl hisImpl] at hisInc
      cases hisInc
  · intro hb
    exact List.mem_append_left _ (mem_missingImplIssues.mpr ⟨header, hmem, hb, rfl⟩)

/-- Witness for claim C3 on the sample filesystem. -/
theorem c3_witness :
    ("Missing implementation: " ++ "src/A.h") ∈ issuesSample ↔
      fsSample.pathExists (implPath "src/A.h") = false :=
  @c3_missing_impl_iff fsSample issuesSample rfl "src/A.h" (by decide)

/-- Claim C4: for every enumerated header whose read succeeds with some
content, the result contains `"Missing JuceHeader.h in: <header>"` if and
only if that content does not contain the literal substring
`#include <JuceHeader.h>`. -/
theorem c4_missing_include_iff {fs : FS} {issues : List String}
    (hok : check_project fs = .ok issues) {header content : String}
    (hmem : header ∈ fs.headers)
    (hread : fs.readFile header = .ok content) :
    ("Missing JuceHeader.h in: " ++ header) ∈ issues ↔
      containsSub juceNeedle.data content.data = false := by
  obtain ⟨inc, hincOk, rfl⟩ := check_project_ok_iff.mp hok
  constructor
  · intro hin
    rcases List.mem_append.mp hin with hA | hB
    · have hisImpl := mem_missingImplIssues_isImpl hA
      have hisInc := isMissingIncludeIssue_of_issue header
      rw [not_impl_of_include hisInc] at hisImpl
      cases hisImpl
    · obtain ⟨h', _, c', hr', hc', heq⟩ := (checkIncludes_ok_mem hincOk).mp hB
      have hh : header = h' := string_append_cancel heq
      subst hh
      rw [hread] at hr'
      injection hr' with hc2
      subst hc2
      exact hc'
  · intro hc
    exact List.mem_append_right _
      ((checkIncludes_ok_mem hincOk).mpr ⟨header, hmem, content, hread, hc, rfl⟩)

/-- Witness for claim C4 on the sample filesystem. -/
theorem c4_witness :
    ("Missing JuceHeader.h in: " ++ "src/A.h") ∈ issuesSample ↔
      containsSub juceNeedle.data ("class A;\n" : String).data = false :=
  @c4_missing_include_iff fsSample issuesSample rfl "src/A.h" "class A;\n"
    (by decide) rfl

/-- Claim C5: the missing-include issues depend only on the header list and
the file contents, not on which derived paths exist: two filesystem states
with the same headers and the same reader yield the same missing-include
issues, whatever their existence predicates. -/
theorem c5_include_issues_independent_of_exists {fs1 fs2 : FS}
    (hh : fs1.headers = fs2.headers) (hr : fs1.readFile = fs2.readFile)
    {is1 is2 : List String}
    (h1 : check_project fs1 = .ok is1) (h2 : check_project fs2 = .ok is2) :
    is1.filter isMissingIncludeIssue = is2.filter isMissingIncludeIssue := by
  obtain ⟨inc1, hk1, rfl⟩ := check_project_ok_iff.mp h1
  obtain ⟨inc2, hk2, rfl⟩ := check_project_ok_iff.mp h2
  have hsame : inc2 = inc1 := by
    have hstep : checkIncludes fs2 fs2.headers = checkIncludes fs1 fs1.headers := by
      rw [← hh]
      exact (checkIncludes_congr hr fs1.headers).symm
    rw [hk1, hk2] at hstep
    injection hstep
  subst hsame
  rw [List.filter_append, List.filter_append]
  have hnil1 : (missingImplIssues fs1).filter isMissingIncludeIssue = [] :=
    List.filter_eq_nil_iff.mpr fun a ha hp => by
      rw [not_include_of_impl (mem_missingImplIssues_isImpl ha)] at hp
      cases hp
  have hnil2 : (missingImplIssues fs2).filter isMissingIncludeIssue = [] :=
    List.filter_eq_nil_iff.mpr fun a ha hp => by
      rw [not_include_of_impl (mem_missingImplIssues_isImpl ha)] at hp
      cases hp
  rw [hnil1, hnil2]

/-- Witness for claim C5: `fsSample` and `fsSampleExists` differ only in
their existence predicate and give the same missing-include issues. -/
theorem c5_witness :
    issuesSample.filter isMissingIncludeIssue =
      ["Missing JuceHeader.h in: src/A.h"].filter isMissingIncludeIssue :=
  @c5_include_issues_independent_of_exists fsSample fsSampleExists rfl rfl
    issuesSample ["Missing JuceHeader.h in: src/A.h"] rfl rfl

/-- Claim C6: if reading any enumerated header fails, `check_project`
propagates the failure and returns no issue sequence at all, not even a
partial one. -/
theorem c6_read_error_aborts {fs : FS} {header e : String}
    (hmem : header ∈ fs.headers) (he : fs.readFile header = .error e) :
    ∀ issues : List String, check_project fs ≠ .ok issues := by
  intro issues hok
  obtain ⟨inc, hincOk, _⟩ := check_project_ok_iff.mp hok
  obtain ⟨e', he'⟩ := checkIncludes_error hmem he
  rw [he'] at hincOk
  cases hincOk

/-- Witness for claim C6 on a filesystem whose reads fail. -/
theorem c6_witness : check_project fsErr ≠ .ok [] :=
  @c6_read_error_aborts fsErr "src/A.h" "PermissionError" (by decide) rfl []

/-- Claim C7: when the glob enumerates zero headers, `check_project`
returns the empty sequence. -/
theorem c7_no_headers_empty_result {fs : FS} (h : fs.headers = []) :
    check_project fs = .ok [] := by
  simp [check_project, checkIncludes, missingImplIssues, h]

/-- Witness for claim C7 on the empty filesystem. -/
theorem c7_witness : check_project fsEmpty = .ok [] :=
  c7_no_headers_empty_result rfl

/-- Claim C8: as an entry point, the program prints exactly one line per
issue, in the returned order, each line being the issue prefixed with the
warning glyph and two spaces, and nothing else. -/
theorem c8_prints_each_issue_prefixed {fs : FS} {problems : List String}
    (hok : check_project fs = .ok problems) :
    ∃ lines : List String, mainOutput fs = .ok lines ∧
      lines.length = problems.length ∧
      ∀ i (hl : i < lines.length) (hp : i < problems.length),
        lines.get ⟨i, hl⟩ = "⚠️  " ++ problems.get ⟨i, hp⟩ := by
  refine ⟨problems.map warnLine, ?_, by simp, ?_⟩
  · unfold mainOutput
    rw [hok]
  · intro i hl hp
    simp [warnLine]

/-- Witness for claim C8 on the sample filesystem. -/
theorem c8_witness :
    ∃ lines : List String, mainOutput fsSample = .ok lines ∧
      lines.length = issuesSample.length ∧
      ∀ i (hl : i < lines.length) (hp : i < issuesSample.length),
        lines.get ⟨i, hl⟩ = "⚠️  " ++ issuesSample.get ⟨i, hp⟩ :=
  c8_prints_each_issue_prefixed rfl

/-- Claim C9: `check_project` is deterministic in the filesystem state:
equal header enumerations, existence predicates and readers give equal
results. -/
theorem c9_deterministic {fs1 fs2 : FS} (hh : fs1.headers = fs2.headers)
    (hp : fs1.pathExists = fs2.pathExists) (hr : fs1.readFile = fs2.readFile) :
    check_project fs1 = check_project fs2 := by
  have : fs1 = fs2 := by
    cases fs1; cases fs2
    simp_all
  rw [this]

/-- Witness for claim C9, applied to the sample filesystem twice. -/
theorem c9_witness : check_project fsSample = check_project fsSample :=
  c9_deterministic rfl rfl rfl

/-- Claim C10: for every header path ending in `".h"`, the derived
companion path ends in `".cpp"` and differs from the header path; and every
successful result has at most twice as many issues as headers. -/
theorem c10_derived_path_shape {p : String} (hp : ".h".data <:+ p.data)
    {fs : FS} {issues : List String} (hok : check_project fs = .ok issues) :
    (".cpp".data <:+ (implPath p).data ∧ implPath p ≠ p) ∧
      issues.length ≤ 2 * fs.headers.length := by
  obtain ⟨inc, hincOk, rfl⟩ := check_project_ok_iff.mp hok
  refine ⟨⟨replaceDotH_suffix p.data hp, ?_⟩, ?_⟩
  · intro heq
    have hdata : replaceDotH p.data = p.data := congrArg String.data heq
    have h1 := getLast_of_suffix_cpp (replaceDotH_suffix p.data hp)
    have h2 := getLast_of_suffix_dotH hp
    rw [hdata, h2] at h1
    exact absurd h1 (by decide)
  · have l1 : (missingImplIssues fs).length ≤ fs.headers.length :=
      List.length_filterMap_le _ _
    have l2 := checkIncludes_length hincOk
    rw [List.length_append]
    omega

/-- Witness for claim C10 at the header `"src/A.h"` on the sample
filesystem. -/
theorem c10_witness :
    ((".cpp".data <:+ (implPath "src/A.h").data ∧
        implPath "src/A.h" ≠ "src/A.h") ∧
      issuesSample.length ≤ 2 * fsSample.headers.length) :=
  @c10_derived_path_shape "src/A.h" (by decide) fsSample issuesSample rfl

end CheckProject
